import Mathlib

/-!
Verification of the Rentello backend's suggestion / prediction logic
(`api/app.py`): the text normalizer (`clean_text`), the structured JSON
parse step (`parse_json_array`), the heuristic line extractor
(`fallback_extract_lines`), the tiered fallback selection of the
`/suggest` route, and the `/predict` route.

The Python source is shallowly embedded: strings are Lean `String` /
`List Char`, Python floats are modelled by `ℚ`, the external model
artifact and `numpy.exp` are abstract function parameters, and the
remote HTTP call of `/suggest` is an explicit outcome value (returned
content, or the raised exception's description).
-/

namespace Rentello

/-! ## Python-style character predicates -/

/-- Whitespace for Python's `str.strip()` / `str.split()` (`str.isspace`),
covering the ASCII range plus the common Unicode space characters. -/
def pyIsSpace (c : Char) : Bool :=
  c = ' ' || c = '\t' || c = '\n' || c = '\r' || c = '\x0b' || c = '\x0c' ||
  c = '\x1c' || c = '\x1d' || c = '\x1e' || c = '\x1f' || c = '\x85' ||
  c = ' ' || c = ' ' || c = ' '

/-- Line boundaries recognised by Python's `str.splitlines()`
(besides the two-character boundary `"\r\n"`, handled separately). -/
def isLineBreak (c : Char) : Bool :=
  c = '\n' || c = '\r' || c = '\x0b' || c = '\x0c' ||
  c = '\x1c' || c = '\x1d' || c = '\x1e' || c = '\x85' ||
  c = ' ' || c = ' '

/-- JSON whitespace as accepted between tokens by `json.loads`. -/
def isJsonWs (c : Char) : Bool :=
  c = ' ' || c = '\t' || c = '\n' || c = '\r'

/-- Drop trailing characters satisfying `pyIsSpace` (the right half of
Python's `str.strip()`). -/
def dropTrailWs : List Char → List Char
  | [] => []
  | c :: rest =>
    match dropTrailWs rest with
    | [] => if pyIsSpace c then [] else [c]
    | r => c :: r

/-- Python's `str.strip()` on a character list. -/
def stripList (cs : List Char) : List Char :=
  dropTrailWs (cs.dropWhile pyIsSpace)

/-- Python's `str.strip()`. -/
def pyStripStr (s : String) : String :=
  String.mk (stripList s.toList)

/-- Worker for `splitlines`: `acc` holds the current line reversed;
`afterCR` records that the previous character was a `'\r'`, so that a
following `'\n'` is the second half of a single `"\r\n"` boundary. -/
def splitlinesGo : List Char → Bool → List Char → List (List Char)
  | [], _, acc => if acc.isEmpty then [] else [acc.reverse]
  | c :: rest, afterCR, acc =>
    if afterCR && c = '\n' then splitlinesGo rest false acc
    else if c = '\r' then acc.reverse :: splitlinesGo rest true []
    else if isLineBreak c then acc.reverse :: splitlinesGo rest false []
    else splitlinesGo rest false (c :: acc)

/-- Python's `str.splitlines()` on a character list. -/
def splitlines (cs : List Char) : List (List Char) :=
  splitlinesGo cs false []

/-- Worker for `splitWords`: `acc` holds the current word reversed. -/
def splitWordsGo : List Char → List Char → List (List Char)
  | [], acc => if acc.isEmpty then [] else [acc.reverse]
  | c :: rest, acc =>
    if pyIsSpace c then
      if acc.isEmpty then splitWordsGo rest []
      else acc.reverse :: splitWordsGo rest []
    else splitWordsGo rest (c :: acc)

/-- Python's `str.split()` with no separator: split on whitespace runs,
dropping empty pieces. -/
def splitWords (cs : List Char) : List (List Char) :=
  splitWordsGo cs []

/-! ## The normalizer `clean_text`

`clean_text` applies, in order:
1. `re.sub(r"<think>.*?</think>", "", text, flags=re.S | re.I)` — remove
   every non-greedy span from a case-insensitive `<think>` to the earliest
   following case-insensitive `</think>`, the content spanning newlines;
2. `re.sub(r"<.*?>", "", text)` — remove every span from a `<` to the
   earliest following `>` on the same line (no `re.S`: `.` does not match
   a newline);
3. `str.strip()`.
-/

/-- Case-insensitive prefix test: `pat` is given lowercase, the scanned
characters are lowered before comparison. -/
def startsWithCI : List Char → List Char → Bool
  | [], _ => true
  | _ :: _, [] => false
  | p :: ps, c :: rest => (c.toLower == p) && startsWithCI ps rest

/-- Case-insensitive substring test (`pat` given lowercase). -/
def containsCI (pat : List Char) : List Char → Bool
  | [] => startsWithCI pat []
  | c :: rest => startsWithCI pat (c :: rest) || containsCI pat rest

/-- The suffix after the earliest case-insensitive occurrence of `pat`,
`none` when `pat` does not occur. -/
def chopAfterCI (pat : List Char) : List Char → Option (List Char)
  | [] => none
  | c :: rest =>
    if startsWithCI pat (c :: rest) then some ((c :: rest).drop pat.length)
    else chopAfterCI pat rest

/-- The literal `"<think>"`, lowercase. -/
def thinkOpenTag : List Char := ['<', 't', 'h', 'i', 'n', 'k', '>']

/-- The literal `"</think>"`, lowercase. -/
def thinkCloseTag : List Char := ['<', '/', 't', 'h', 'i', 'n', 'k', '>']

theorem chopAfterCI_length {pat : List Char} (hp : pat ≠ []) :
    ∀ {cs l : List Char}, chopAfterCI pat cs = some l → l.length < cs.length := by
  intro cs
  induction cs with
  | nil => intro l h; simp [chopAfterCI] at h
  | cons c rest ih =>
    intro l h
    rw [chopAfterCI] at h
    by_cases hs : startsWithCI pat (c :: rest) = true
    · rw [if_pos hs] at h
      have hl : l = (c :: rest).drop pat.length := by
        injection h with h; exact h.symm
      subst hl
      have h1 : pat.length ≥ 1 := by
        cases pat with
        | nil => exact absurd rfl hp
        | cons p ps => simp
      rw [List.length_drop]
      simp only [List.length_cons]
      omega
    · rw [if_neg hs] at h
      exact Nat.lt_trans (ih h) (by simp)

/-- Fuel-driven worker for the first substitution of `clean_text`; the
fuel only forces termination and is immaterial once it covers the input
length (each step consumes at least one character). -/
def removeThinkGo : Nat → List Char → List Char
  | 0, cs => cs
  | _ + 1, [] => []
  | fuel + 1, c :: rest =>
    if startsWithCI thinkOpenTag (c :: rest) then
      match chopAfterCI thinkCloseTag ((c :: rest).drop thinkOpenTag.length) with
      | some l => removeThinkGo fuel l
      | none => c :: removeThinkGo fuel rest
    else c :: removeThinkGo fuel rest

/-- The first substitution of `clean_text`:
`re.sub(r"<think>.*?</think>", "", text, flags=re.S | re.I)` — scan for
a case-insensitive `<think>`; at one, remove through the earliest
case-insensitive `</think>` (content spanning newlines) and continue
after it; with no closing tag the position does not match and scanning
moves one character on. -/
def removeThink (cs : List Char) : List Char :=
  removeThinkGo cs.length cs

/-- Is there a `>` before the next line break? (`.` in the pattern
`<.*?>` does not match `\n`, so a `<` is closed only on its own line.) -/
def lineHasClose : List Char → Bool
  | [] => false
  | c :: rest =>
    if c = '>' then true
    else if c = '\n' then false
    else lineHasClose rest

/-- The suffix after the first `>` (callers guarantee one exists before
the next line break). -/
def afterClose : List Char → List Char
  | [] => []
  | c :: rest => if c = '>' then rest else afterClose rest

theorem afterClose_length : ∀ cs : List Char, (afterClose cs).length ≤ cs.length := by
  intro cs
  induction cs with
  | nil => simp [afterClose]
  | cons c rest ih =>
    rw [afterClose]
    by_cases hc : c = '>'
    · rw [if_pos hc]; simp
    · rw [if_neg hc]; simp; omega

/-- Fuel-driven worker for the second substitution of `clean_text`; as
with `removeThinkGo` the fuel is immaterial once it covers the input. -/
def removeTagsGo : Nat → List Char → List Char
  | 0, cs => cs
  | _ + 1, [] => []
  | fuel + 1, c :: rest =>
    if c = '<' then
      if lineHasClose rest then removeTagsGo fuel (afterClose rest)
      else c :: removeTagsGo fuel rest
    else c :: removeTagsGo fuel rest

/-- The second substitution of `clean_text`: `re.sub(r"<.*?>", "", text)`
— remove every span from a `<` to the earliest `>` on the same line
(`.` does not match `\n`); a `<` with no `>` on its line is kept. -/
def removeTags (cs : List Char) : List Char :=
  removeTagsGo cs.length cs

/-- `clean_text` from `api/app.py`. -/
def clean_text (s : String) : String :=
  if s = "" then ""
  else String.mk (stripList (removeTags (removeThink s.toList)))

/-! ## `json.loads` and `parse_json_array`

`parse_json_array` feeds the cleaned text to `json.loads` and accepts the
result only when it is a list whose elements are all strings.  The JSON
reader below models `json.loads` on the standard JSON grammar (numeric
values are held exactly in `ℚ`; object duplicate-key resolution is
immaterial because only the array-of-strings shape is ever accepted). -/

inductive Json where
  | null : Json
  | bool (b : Bool) : Json
  | num (q : ℚ) : Json
  | str (s : String) : Json
  | arr (xs : List Json) : Json
  | obj (fields : List (String × Json)) : Json

/-- Skip JSON inter-token whitespace. -/
def skipWs (cs : List Char) : List Char :=
  cs.dropWhile isJsonWs

/-- Numeric value of a hexadecimal digit (codes 48–57 are `0`–`9`,
97–102 are `a`–`f`, 65–70 are `A`–`F`). -/
def hexVal (c : Char) : Option Nat :=
  let n := c.toNat
  if 48 ≤ n && n ≤ 57 then some (n - 48)
  else if 97 ≤ n && n ≤ 102 then some (n - 87)
  else if 65 ≤ n && n ≤ 70 then some (n - 55)
  else none

/-- The body of a JSON string, after the opening quote: the decoded
content and the suffix after the closing quote.  Raw control characters
are rejected (`json.loads` default `strict=True`); the escapes are those
of the JSON grammar, `\uXXXX` decoded as a single scalar value. -/
def parseStrBody : List Char → Option (List Char × List Char)
  | [] => none
  | '"' :: rest => some ([], rest)
  | '\\' :: e :: rest =>
    match e with
    | '"' => (parseStrBody rest).map (fun p => ('"' :: p.1, p.2))
    | '\\' => (parseStrBody rest).map (fun p => ('\\' :: p.1, p.2))
    | '/' => (parseStrBody rest).map (fun p => ('/' :: p.1, p.2))
    | 'b' => (parseStrBody rest).map (fun p => ('\x08' :: p.1, p.2))
    | 'f' => (parseStrBody rest).map (fun p => ('\x0c' :: p.1, p.2))
    | 'n' => (parseStrBody rest).map (fun p => ('\n' :: p.1, p.2))
    | 'r' => (parseStrBody rest).map (fun p => ('\r' :: p.1, p.2))
    | 't' => (parseStrBody rest).map (fun p => ('\t' :: p.1, p.2))
    | 'u' =>
      match rest with
      | h1 :: h2 :: h3 :: h4 :: rest2 =>
        match hexVal h1, hexVal h2, hexVal h3, hexVal h4 with
        | some a, some b, some c, some d =>
          (parseStrBody rest2).map
            (fun p => (Char.ofNat (((a * 16 + b) * 16 + c) * 16 + d) :: p.1, p.2))
        | _, _, _, _ => none
      | _ => none
    | _ => none
  | c :: rest =>
    if c.toNat < 0x20 then none
    else (parseStrBody rest).map (fun p => (c :: p.1, p.2))

/-- Value of a run of decimal digits. -/
def digitsToNat (ds : List Char) : Nat :=
  ds.foldl (fun acc c => acc * 10 + (c.toNat - '0'.toNat)) 0

/-- A JSON number: `-?(0|[1-9][0-9]*)(\.[0-9]+)?([eE][+-]?[0-9]+)?`,
valued exactly in `ℚ`. -/
def parseNumber (cs : List Char) : Option (ℚ × List Char) :=
  let (neg, cs1) :=
    match cs with
    | '-' :: r => (true, r)
    | _ => (false, cs)
  let ints := cs1.takeWhile Char.isDigit
  let cs2 := cs1.dropWhile Char.isDigit
  if ints = [] then none
  else if ints.head? = some '0' ∧ ints.length > 1 then none
  else
    let (fr, cs3) :=
      match cs2 with
      | '.' :: r =>
        (r.takeWhile Char.isDigit, if r.takeWhile Char.isDigit = [] then none else some (r.dropWhile Char.isDigit))
      | _ => ([], some cs2)
    match cs3 with
    | none => none
    | some cs3 =>
      let expPart :
          Option (Int × List Char) :=
        match cs3 with
        | 'e' :: r | 'E' :: r =>
          let (esign, r2) :=
            match r with
            | '+' :: r2 => ((1 : Int), r2)
            | '-' :: r2 => ((-1 : Int), r2)
            | _ => ((1 : Int), r)
          let eds := r2.takeWhile Char.isDigit
          if eds = [] then none
          else some (esign * (digitsToNat eds : Int), r2.dropWhile Char.isDigit)
        | _ => some (0, cs3)
      match expPart with
      | none => none
      | some (e, rest) =>
        let mantissa : ℚ :=
          (digitsToNat ints : ℚ) + (digitsToNat fr : ℚ) / ((10 : ℚ) ^ fr.length)
        let value : ℚ := (if neg then -mantissa else mantissa) * (10 : ℚ) ^ e
        some (value, rest)

mutual

/-- One JSON value (with leading whitespace skipped) and the remaining
input; `fuel` bounds the recursion depth and is chosen ample at top level. -/
def parseValue : Nat → List Char → Option (Json × List Char)
  | 0, _ => none
  | fuel + 1, cs =>
    match skipWs cs with
    | [] => none
    | '"' :: rest => (parseStrBody rest).map (fun p => (Json.str (String.mk p.1), p.2))
    | '[' :: rest =>
      match skipWs rest with
      | ']' :: r2 => some (Json.arr [], r2)
      | _ => parseElems fuel (skipWs rest) []
    | '{' :: rest =>
      match skipWs rest with
      | '}' :: r2 => some (Json.obj [], r2)
      | _ => parseMembers fuel (skipWs rest) []
    | 't' :: 'r' :: 'u' :: 'e' :: rest => some (Json.bool true, rest)
    | 'f' :: 'a' :: 'l' :: 's' :: 'e' :: rest => some (Json.bool false, rest)
    | 'n' :: 'u' :: 'l' :: 'l' :: rest => some (Json.null, rest)
    | other => (parseNumber other).map (fun p => (Json.num p.1, p.2))

/-- The elements of an array, after `[` (first element pending),
accumulated reversed in `acc`. -/
def parseElems : Nat → List Char → List Json → Option (Json × List Char)
  | 0, _, _ => none
  | fuel + 1, cs, acc =>
    match parseValue fuel cs with
    | none => none
    | some (v, rest) =>
      match skipWs rest with
      | ',' :: r2 => parseElems fuel r2 (v :: acc)
      | ']' :: r2 => some (Json.arr (v :: acc).reverse, r2)
      | _ => none

/-- The members of an object, after `{` (first member pending),
accumulated reversed in `acc`. -/
def parseMembers : Nat → List Char → List (String × Json) → Option (Json × List Char)
  | 0, _, _ => none
  | fuel + 1, cs, acc =>
    match skipWs cs with
    | '"' :: rest =>
      match parseStrBody rest with
      | none => none
      | some (key, rest2) =>
        match skipWs rest2 with
        | ':' :: rest3 =>
          match parseValue fuel rest3 with
          | none => none
          | some (v, rest4) =>
            match skipWs rest4 with
            | ',' :: r2 => parseMembers fuel r2 ((String.mk key, v) :: acc)
            | '}' :: r2 => some (Json.obj ((String.mk key, v) :: acc).reverse, r2)
            | _ => none
        | _ => none
    | _ => none

end

/-- `json.loads`: one JSON value, surrounding whitespace allowed,
nothing but whitespace after it. -/
def parseJson (s : String) : Option Json :=
  match parseValue (s.length + 1) s.toList with
  | some (v, rest) => if skipWs rest = [] then some v else none
  | none => none

/-- Is this JSON value a string? (`isinstance(x, str)`). -/
def isStr : Json → Bool
  | Json.str _ => true
  | _ => false

/-- The string under a `Json.str` (defaulting never used under `isStr`). -/
def getStr : Json → Option String
  | Json.str s => some s
  | _ => none

/-- `parse_json_array` from `api/app.py`: `json.loads`, accepted only
when the result is a list of strings, each entry stripped and empty
entries dropped; any failure yields `None`. -/
def parse_json_array (text : String) : Option (List String) :=
  match parseJson text with
  | some (Json.arr xs) =>
    if xs.all isStr then
      some ((((xs.filterMap getStr).filter (fun x => pyStripStr x ≠ "")).map pyStripStr))
    else none
  | _ => none

/-! ## `fallback_extract_lines` -/

/-- The character class of the line-marker pattern
`r"^[\-\•\d\.\)\s]+"`: dash, bullet, decimal digit, dot, closing
parenthesis, whitespace.  An opening parenthesis is not in the class. -/
def isListMarker (c : Char) : Bool :=
  c = '-' || c = '•' || c.isDigit || c = '.' || c = ')' || pyIsSpace c

/-- `re.sub(r"^[\-\•\d\.\)\s]+", "", l).strip()` applied to one line. -/
def lineCore (l : List Char) : List Char :=
  stripList (l.dropWhile isListMarker)

/-- The word-count / length filter: `min_words <= len(l.split()) <=
max_words and len(l) <= 140`. -/
def keepLine (minWords maxWords : Nat) (l : List Char) : Bool :=
  minWords ≤ (splitWords l).length && (splitWords l).length ≤ maxWords &&
    l.length ≤ 140

/-- `fallback_extract_lines` from `api/app.py` (the route calls it with
the default `min_words=2, max_words=25`). -/
def fallback_extract_lines (minWords maxWords : Nat) (text : String) : List String :=
  let lines :=
    ((splitlines text.toList).filter (fun l => stripList l ≠ [])).map lineCore
  (lines.filter (keepLine minWords maxWords)).map String.mk

/-! ## The `/suggest` route -/

/-- The static tiered suggestion lists `LOCAL_FALLBACK`. -/
inductive Tier where
  | tier1 : Tier
  | tier2 : Tier
  | global : Tier
deriving DecidableEq

def LOCAL_FALLBACK : Tier → List String
  | Tier.tier1 =>
    ["Lodha World Towers — Lower Parel, Mumbai",
     "Antilia-style luxury residence — Alt Area, Mumbai",
     "DLF The Crest — Golf Course Road, Gurgaon"]
  | Tier.tier2 =>
    ["Prestige Leela Residences — Residency Road, Bangalore",
     "Hiranandani Towers — Powai, Mumbai",
     "DLF Phase 4 — Gurgaon"]
  | Tier.global =>
    ["One Hyde Park — Knightsbridge, London",
     "432 Park Avenue — Manhattan, New York",
     "Burj Khalifa Residences — Downtown Dubai"]

/-- The tier comparison chain used (three times) by `suggest`:
`if price < 1_000_000 ... elif price < 10_000_000 ... else ...`. -/
def tierFor (price : ℚ) : Tier :=
  if price < 1000000 then Tier.tier2
  else if price < 10000000 then Tier.tier1
  else Tier.global

/-- The outcome of `call_groq`: either the extracted completion content
(possibly `""`), or the description of the exception raised by the
request, `raise_for_status`, or response decoding. -/
inductive CallOutcome where
  | ok (content : String) : CallOutcome
  | err (msg : String) : CallOutcome

/-- The JSON body and HTTP status answered by `/suggest` (`jsonify`
answers 200 on every path of the route). -/
structure SuggestResponse where
  suggestion : List String
  debug : Option String
  status : Nat
deriving DecidableEq

/-- The shared tail of the route: heuristic lines if any, else the
tiered fallback. -/
def suggestFromLines (rawClean : String) (price : ℚ) : SuggestResponse :=
  let lines := fallback_extract_lines 2 25 rawClean
  if lines.isEmpty then ⟨LOCAL_FALLBACK (tierFor price), none, 200⟩
  else ⟨lines, none, 200⟩

/-- The `suggest` route of `api/app.py`, as a function of the configured
credential, the numeric `price` of the request, and the outcome of the
remote call (unused when no credential is configured, since the route
returns before calling). -/
def suggest (groqKey : Option String) (price : ℚ) (outcome : CallOutcome) :
    SuggestResponse :=
  match groqKey with
  | none => ⟨LOCAL_FALLBACK (tierFor price), none, 200⟩
  | some _ =>
    match outcome with
    | CallOutcome.err e => ⟨LOCAL_FALLBACK (tierFor price), some e, 200⟩
    | CallOutcome.ok raw =>
      let rawClean := clean_text raw
      match parse_json_array rawClean with
      | some parsed =>
        if parsed.isEmpty then suggestFromLines rawClean price
        else ⟨parsed, none, 200⟩
      | none => suggestFromLines rawClean price

/-! ## The `/predict` route -/

/-- A JSON value of the request body as seen by `float(...)`: either a
value `float` accepts (a number, a numeric string, a boolean), carried
as its numeric value, or one it rejects. -/
inductive PyVal where
  | num (q : ℚ) : PyVal
  | nonnum : PyVal
deriving DecidableEq

/-- `float(x)`: the numeric value, or a conversion failure. -/
def pyFloat : PyVal → Option ℚ
  | PyVal.num q => some q
  | PyVal.nonnum => none

/-- The seven required fields, in evaluation order. -/
def requiredFields : List String :=
  ["bedrooms", "bathrooms", "lotarea", "grade", "condition", "waterfront", "views"]

/-- `float(data[name])`: a missing key or a non-numeric value raises; the
carried message stands for `str(e)`. -/
def extractFeature (data : String → Option PyVal) (name : String) :
    Except String ℚ :=
  match data name with
  | none => Except.error name
  | some v =>
    match pyFloat v with
    | some q => Except.ok q
    | none => Except.error name

/-- The feature row `[[bedrooms, ..., views]]` (inner list). -/
def extractFeatures (data : String → Option PyVal) : Except String (List ℚ) :=
  requiredFields.mapM (extractFeature data)

/-- The JSON body and HTTP status answered by `/predict`. -/
inductive PredictResponse where
  | ok (prediction : ℚ) : PredictResponse
  | fail (error : String) (status : Nat) : PredictResponse
deriving DecidableEq

/-- The `predict` route of `api/app.py`: `expF` stands for `numpy.exp`
and `model` for the loaded regression pipeline's `predict` on one row
(`None` when the artifact failed to load). -/
def predict (expF : ℚ → ℚ) (model : Option (List ℚ → ℚ))
    (data : String → Option PyVal) : PredictResponse :=
  match model with
  | none => PredictResponse.fail "Model not loaded on server" 500
  | some m =>
    match extractFeatures data with
    | Except.ok feats => PredictResponse.ok (expF (m feats))
    | Except.error e => PredictResponse.fail e 500

/-! ## Shape predicates used by the claim statements -/

/-- Lowercase a character list (for stating case-insensitivity). -/
def lowerList (cs : List Char) : List Char :=
  cs.map Char.toLower

/-- Is there a `<` followed, later on the same line, by a `>`? (The
shape the pattern `<.*?>` matches.) -/
def hasTagPair : List Char → Bool
  | [] => false
  | c :: rest =>
    if c = '<' then lineHasClose rest || hasTagPair rest
    else hasTagPair rest

/-- Is this JSON value an array whose elements are all strings? -/
def isStrArray : Json → Bool
  | Json.arr xs => xs.all isStr
  | _ => false

/-! ## General lemmas -/

theorem LOCAL_FALLBACK_ne_nil (t : Tier) : LOCAL_FALLBACK t ≠ [] := by
  cases t <;> simp [LOCAL_FALLBACK]

theorem LOCAL_FALLBACK_length (t : Tier) : (LOCAL_FALLBACK t).length = 3 := by
  cases t <;> simp [LOCAL_FALLBACK]

theorem suggestFromLines_ne_nil (rawClean : String) (price : ℚ) :
    (suggestFromLines rawClean price).suggestion ≠ [] := by
  unfold suggestFromLines
  by_cases h : (fallback_extract_lines 2 25 rawClean).isEmpty
  · simp only [h, if_true]
    exact LOCAL_FALLBACK_ne_nil _
  · simp only [h, if_false]
    simpa [List.isEmpty_iff] using h

/-! ## Claim theorems -/

/-- Claim C1: tier selection is a pure function of the numeric budget
with strict less-than boundaries — `b < 1,000,000` selects tier2
(negative budgets included), `1,000,000 ≤ b < 10,000,000` selects tier1,
`b ≥ 10,000,000` selects the global tier — and, with no credential
configured, `/suggest` with price 5,000,000 answers exactly the tier1
fallback list. -/
theorem C1_tier_selection :
    (∀ b : ℚ, b < 1000000 → tierFor b = Tier.tier2) ∧
    (∀ b : ℚ, b < 0 → tierFor b = Tier.tier2) ∧
    (∀ b : ℚ, 1000000 ≤ b → b < 10000000 → tierFor b = Tier.tier1) ∧
    (∀ b : ℚ, 10000000 ≤ b → tierFor b = Tier.global) ∧
    (∀ out : CallOutcome, suggest none 5000000 out =
      ⟨["Lodha World Towers — Lower Parel, Mumbai",
        "Antilia-style luxury residence — Alt Area, Mumbai",
        "DLF The Crest — Golf Course Road, Gurgaon"], none, 200⟩) := by
  refine ⟨?_, ?_, ?_, ?_, ?_⟩
  · intro b h
    simp [tierFor, h]
  · intro b h
    have : b < 1000000 := lt_trans h (by norm_num)
    simp [tierFor, this]
  · intro b h1 h2
    rw [tierFor, if_neg (by linarith), if_pos h2]
  · intro b h
    rw [tierFor, if_neg (by linarith), if_neg (by linarith)]
  · intro out
    have h : tierFor 5000000 = Tier.tier1 := by
      rw [tierFor, if_neg (by norm_num), if_pos (by norm_num)]
    simp [suggest, h, LOCAL_FALLBACK]

/-- Witness for C1 at the boundary budgets and at the no-credential
request of the claim. -/
theorem C1_tier_selection_witness :
    tierFor (-5) = Tier.tier2 ∧ tierFor 999999 = Tier.tier2 ∧
    tierFor 1000000 = Tier.tier1 ∧ tierFor 9999999 = Tier.tier1 ∧
    tierFor 10000000 = Tier.global ∧
    suggest none 5000000 (CallOutcome.ok "ignored") =
      ⟨["Lodha World Towers — Lower Parel, Mumbai",
        "Antilia-style luxury residence — Alt Area, Mumbai",
        "DLF The Crest — Golf Course Road, Gurgaon"], none, 200⟩ :=
  ⟨C1_tier_selection.2.1 (-5) (by norm_num),
   C1_tier_selection.1 999999 (by norm_num),
   C1_tier_selection.2.2.1 1000000 (by norm_num) (by norm_num),
   C1_tier_selection.2.2.1 9999999 (by norm_num) (by norm_num),
   C1_tier_selection.2.2.2.1 10000000 (by norm_num),
   C1_tier_selection.2.2.2.2 (CallOutcome.ok "ignored")⟩

/-- Claim C2: for every request and every outcome of the remote call and
of normalization, the suggestion list of `/suggest` is non-empty; when
the live output is unusable (no structured parse, no heuristic lines, or
a failed call) the tiered fallback list for the budget is answered, and
that list has three entries. -/
theorem C2_nonempty_suggestions :
    (∀ (key : Option String) (price : ℚ) (out : CallOutcome),
      (suggest key price out).suggestion ≠ []) ∧
    (∀ price : ℚ, (LOCAL_FALLBACK (tierFor price)).length = 3) ∧
    (∀ (k : String) (price : ℚ) (e : String),
      (suggest (some k) price (CallOutcome.err e)).suggestion =
        LOCAL_FALLBACK (tierFor price)) ∧
    (∀ (k : String) (price : ℚ) (raw : String),
      (parse_json_array (clean_text raw)).getD [] = [] →
      fallback_extract_lines 2 25 (clean_text raw) = [] →
      (suggest (some k) price (CallOutcome.ok raw)).suggestion =
        LOCAL_FALLBACK (tierFor price)) := by
  refine ⟨?_, fun price => LOCAL_FALLBACK_length _, fun k price e => rfl, ?_⟩
  · intro key price out
    match key with
    | none => exact LOCAL_FALLBACK_ne_nil _
    | some k =>
      match out with
      | CallOutcome.err e => exact LOCAL_FALLBACK_ne_nil _
      | CallOutcome.ok raw =>
        rw [suggest]
        cases hp : parse_json_array (clean_text raw) with
        | none => exact suggestFromLines_ne_nil _ _
        | some parsed =>
          by_cases he : parsed.isEmpty
          · simp only [he, if_true]
            exact suggestFromLines_ne_nil _ _
          · simp only [he, if_false]
            simpa [List.isEmpty_iff] using he
  · intro k price raw hp hl
    rw [suggest]
    cases hpj : parse_json_array (clean_text raw) with
    | none =>
      simp [suggestFromLines, hl]
    | some parsed =>
      rw [hpj] at hp
      simp only [Option.getD_some] at hp
      simp [hp, suggestFromLines, hl]

/-- Witness for C2's conditional part: content the model answered that
yields neither a structured parse nor heuristic lines. -/
theorem C2_nonempty_suggestions_witness :
    (parse_json_array (clean_text "")).getD [] = [] ∧
    fallback_extract_lines 2 25 (clean_text "") = [] ∧
    (suggest (some "key") 5 (CallOutcome.ok "")).suggestion =
      LOCAL_FALLBACK (tierFor 5) :=
  ⟨by decide, by decide,
   C2_nonempty_suggestions.2.2.2 "key" 5 "" (by decide) (by decide)⟩

/-- Claim C7: with a credential configured, any failure of the remote
call (transport, timeout, non-success status) makes `/suggest` answer
the tiered fallback list for the price together with a non-empty `debug`
string carrying the failure's description, with a success status (the
failure is never surfaced as a hard error). -/
theorem C7_error_fallback :
    ∀ (k : String) (price : ℚ) (e : String), e ≠ "" →
      (suggest (some k) price (CallOutcome.err e)).suggestion =
        LOCAL_FALLBACK (tierFor price) ∧
      (suggest (some k) price (CallOutcome.err e)).status = 200 ∧
      ∃ d, (suggest (some k) price (CallOutcome.err e)).debug = some d ∧ d ≠ "" := by
  intro k price e he
  exact ⟨rfl, rfl, e, rfl, he⟩

/-- Witness for C7 at a concrete timed-out call. -/
theorem C7_error_fallback_witness :
    (suggest (some "key") 5000000 (CallOutcome.err "ReadTimeout")).suggestion =
      LOCAL_FALLBACK (tierFor 5000000) ∧
    (suggest (some "key") 5000000 (CallOutcome.err "ReadTimeout")).status = 200 ∧
    ∃ d, (suggest (some "key") 5000000 (CallOutcome.err "ReadTimeout")).debug = some d ∧
      d ≠ "" :=
  C7_error_fallback "key" 5000000 "ReadTimeout" (by decide)

theorem filterMap_getStr_map (l : List String) :
    (l.map Json.str).filterMap getStr = l := by
  induction l with
  | nil => rfl
  | cons a t ih => simp [getStr, ih]

/-- Counterexample to claim C4 as stated: `[" "]` is a well-formed JSON
array of non-empty strings, but the parse step answers the empty list —
not a list of the same length (1) with the entry trimmed. -/
theorem C4_counterexample :
    parse_json_array "[\" \"]" = some [] ∧
      some ([] : List String) ≠ some [pyStripStr " "] :=
  ⟨by decide, by decide⟩

/-- Claim C4, amended: a well-formed JSON array of strings each of which
is non-blank (non-empty after trimming) parses to the sequence of its
entries trimmed, in order and of the same length.  (An entry that trims
to empty is dropped, so whitespace-only entries shrink the result.) -/
theorem C4_json_array_amended :
    ∀ (text : String) (l : List String),
      parseJson text = some (Json.arr (l.map Json.str)) →
      (∀ s ∈ l, pyStripStr s ≠ "") →
      parse_json_array text = some (l.map pyStripStr) ∧
        (l.map pyStripStr).length = l.length := by
  intro text l h hn
  have hall : (l.map Json.str).all isStr = true := by
    rw [List.all_eq_true]
    intro x hx
    obtain ⟨s, _, rfl⟩ := List.mem_map.mp hx
    rfl
  have hfilter : l.filter (fun x => pyStripStr x ≠ "") = l := by
    rw [List.filter_eq_self]
    intro a ha
    simpa using hn a ha
  constructor
  · rw [parse_json_array, h]
    simp only [hall, if_true, filterMap_getStr_map, hfilter]
  · simp

/-- Witness for C4's amended statement on a concrete array. -/
theorem C4_json_array_amended_witness :
    parse_json_array "[\" a \", \"b\"]" = some ([" a ", "b"].map pyStripStr) ∧
      ([" a ", "b"].map pyStripStr).length = 2 :=
  C4_json_array_amended "[\" a \", \"b\"]" [" a ", "b"] (by rfl) (by decide)

/-- Claim C6: input that is valid JSON but not an array whose elements
are all strings makes the structured parse step yield no result, and the
route then uses the heuristic line extraction (whose lines, when any,
become the response). -/
theorem C6_nonarray_json :
    (∀ (text : String) (v : Json), parseJson text = some v →
      isStrArray v = false → parse_json_array text = none) ∧
    (∀ (k : String) (price : ℚ) (raw : String),
      parse_json_array (clean_text raw) = none →
      fallback_extract_lines 2 25 (clean_text raw) ≠ [] →
      (suggest (some k) price (CallOutcome.ok raw)).suggestion =
        fallback_extract_lines 2 25 (clean_text raw)) := by
  constructor
  · intro text v h hv
    rw [parse_json_array, h]
    cases v with
    | arr xs =>
      rw [isStrArray] at hv
      simp [hv]
    | null => rfl
    | bool b => rfl
    | num q => rfl
    | str s => rfl
    | obj fields => rfl
  · intro k price raw hp hl
    have hE : (fallback_extract_lines 2 25 (clean_text raw)).isEmpty = false := by
      cases h2 : (fallback_extract_lines 2 25 (clean_text raw)).isEmpty
      · rfl
      · exact absurd (by simpa [List.isEmpty_iff] using h2) hl
    simp [suggest, hp, suggestFromLines, hE]

/-- Witness for C6: an object, a number and an array of numbers are
valid JSON but yield no structured parse, and non-JSON content falls
through to heuristic lines. -/
theorem C6_nonarray_json_witness :
    parse_json_array "\x7b\"a\": true\x7d" = none ∧
    parse_json_array "5" = none ∧
    parse_json_array "[1, 2]" = none ∧
    (suggest (some "key") 7 (CallOutcome.ok "just some text")).suggestion =
      fallback_extract_lines 2 25 (clean_text "just some text") :=
  ⟨C6_nonarray_json.1 "\x7b\"a\": true\x7d" (Json.obj [("a", Json.bool true)])
      (by rfl) (by rfl),
   by decide, by decide,
   C6_nonarray_json.2 "key" 7 "just some text" (by decide) (by decide)⟩

theorem extractFeature_eq (data : String → Option PyVal) (f : String) :
    extractFeature data f =
      match (data f).bind pyFloat with
      | some q => Except.ok q
      | none => Except.error f := by
  rw [extractFeature]
  cases data f with
  | none => rfl
  | some v => cases v <;> rfl

theorem mapM_extract_error (data : String → Option PyVal) :
    ∀ (l : List String) (f : String), f ∈ l → (data f).bind pyFloat = none →
      ∃ msg, l.mapM (extractFeature data) = Except.error msg := by
  intro l
  induction l with
  | nil => intro f hf _; simp at hf
  | cons a t ih =>
    intro f hf hfail
    rw [List.mapM_cons]
    cases ha : extractFeature data a with
    | error e => exact ⟨e, rfl⟩
    | ok q =>
      have hfa : f ≠ a := by
        intro e
        subst e
        rw [extractFeature_eq, hfail] at ha
        exact Except.noConfusion ha
      obtain ⟨msg, hm⟩ := ih f (by simpa [hfa] using hf) hfail
      refine ⟨msg, ?_⟩
      have hd : (do
          let x ← (Except.ok q : Except String ℚ)
          let xs ← t.mapM (extractFeature data)
          pure (x :: xs)) =
          t.mapM (extractFeature data) >>= fun xs => pure (q :: xs) := rfl
      rw [hd, hm]
      rfl

/-- Claim C8: with the model artifact loaded and all seven required
fields present and numeric, `/predict` answers the exponential of the
model's raw output on those features (in order); with any field missing
or non-numeric it answers a client-visible error response (status 500)
instead of crashing. -/
theorem C8_predict :
    (∀ (expF : ℚ → ℚ) (m : List ℚ → ℚ) (data : String → Option PyVal)
        (b ba lo g c w v : ℚ),
      data "bedrooms" = some (PyVal.num b) →
      data "bathrooms" = some (PyVal.num ba) →
      data "lotarea" = some (PyVal.num lo) →
      data "grade" = some (PyVal.num g) →
      data "condition" = some (PyVal.num c) →
      data "waterfront" = some (PyVal.num w) →
      data "views" = some (PyVal.num v) →
      predict expF (some m) data =
        PredictResponse.ok (expF (m [b, ba, lo, g, c, w, v]))) ∧
    (∀ (expF : ℚ → ℚ) (m : List ℚ → ℚ) (data : String → Option PyVal),
      (∃ f ∈ requiredFields, (data f).bind pyFloat = none) →
      ∃ msg, predict expF (some m) data = PredictResponse.fail msg 500) := by
  constructor
  · intro expF m data b ba lo g c w v h1 h2 h3 h4 h5 h6 h7
    have hfeat : extractFeatures data = Except.ok [b, ba, lo, g, c, w, v] := by
      rw [extractFeatures, requiredFields]
      simp only [List.mapM_cons, List.mapM_nil, extractFeature,
        h1, h2, h3, h4, h5, h6, h7, pyFloat]
      rfl
    rw [predict, hfeat]
  · intro expF m data ⟨f, hf, hfail⟩
    obtain ⟨msg, hm⟩ := mapM_extract_error data requiredFields f hf hfail
    have hfeat : extractFeatures data = Except.error msg := hm
    exact ⟨msg, by rw [predict, hfeat]⟩

/-- Witness for C8 at a concrete request: a full numeric body, and one
with a non-numeric `views` field. -/
theorem C8_predict_witness :
    predict (fun q => q + 1) (some (fun l => l.sum))
        (fun s => ((([("bedrooms", (3 : ℚ)), ("bathrooms", 2), ("lotarea", 1000),
          ("grade", 7), ("condition", 4), ("waterfront", 0),
          ("views", 2)]).lookup s).map PyVal.num)) =
      PredictResponse.ok ((fun q => q + 1) ((fun l : List ℚ => l.sum) [3, 2, 1000, 7, 4, 0, 2])) ∧
    ∃ msg, predict (fun q => q + 1) (some (fun l => l.sum))
        (fun s => if s = "views" then some PyVal.nonnum else some (PyVal.num 1)) =
      PredictResponse.fail msg 500 :=
  ⟨C8_predict.1 (fun q => q + 1) (fun l => l.sum) _ 3 2 1000 7 4 0 2
      (by rfl) (by rfl) (by rfl) (by rfl) (by rfl) (by rfl) (by rfl),
   C8_predict.2 (fun q => q + 1) (fun l => l.sum) _
      ⟨"views", by decide, by rfl⟩⟩

theorem splitlinesGo_noBreak :
    ∀ (cs : List Char) (flag : Bool) (acc : List Char),
      (∀ c ∈ cs, isLineBreak c = false) →
      splitlinesGo cs flag acc =
        if acc.isEmpty && cs.isEmpty then [] else [acc.reverse ++ cs] := by
  intro cs
  induction cs with
  | nil =>
    intro flag acc _
    rw [splitlinesGo]
    by_cases ha : acc.isEmpty <;> simp [ha]
  | cons c rest ih =>
    intro flag acc h
    have hc : isLineBreak c = false := h c (List.mem_cons_self c rest)
    have hcn : ¬ c = '\n' := by
      intro e; subst e; exact absurd hc (by decide)
    have hcr : ¬ c = '\r' := by
      intro e; subst e; exact absurd hc (by decide)
    rw [splitlinesGo, if_neg (by simp [hcn]), if_neg hcr, if_neg (by simp [hc]),
      ih false (c :: acc) (fun d hd => h d (List.mem_cons_of_mem c hd))]
    simp

theorem dropWhile_head_false {p : Char → Bool} :
    ∀ {l : List Char} {c : Char} {rest : List Char},
      l.dropWhile p = c :: rest → p c = false := by
  intro l
  induction l with
  | nil => intro c rest h; exact absurd h (by simp)
  | cons a t ih =>
    intro c rest h
    rw [List.dropWhile_cons] at h
    by_cases hp : p a
    · rw [if_pos hp] at h
      exact ih h
    · rw [if_neg hp] at h
      obtain ⟨rfl, -⟩ := List.cons.inj h
      simpa using hp

theorem dropTrailWs_head :
    ∀ {l : List Char} {c : Char} {rest : List Char},
      dropTrailWs l = c :: rest → ∃ t, l = c :: t := by
  intro l
  induction l with
  | nil => intro c rest h; exact absurd h (by simp [dropTrailWs])
  | cons a t _ =>
    intro c rest h
    rw [dropTrailWs] at h
    cases hdt : dropTrailWs t with
    | nil =>
      rw [hdt] at h
      by_cases hw : pyIsSpace a
      · rw [if_pos hw] at h
        exact absurd h (by simp)
      · rw [if_neg hw] at h
        obtain ⟨rfl, -⟩ := List.cons.inj h
        exact ⟨t, rfl⟩
    | cons r rs =>
      rw [hdt] at h
      obtain ⟨rfl, -⟩ := List.cons.inj h
      exact ⟨t, rfl⟩

theorem isListMarker_of_space {c : Char} (h : pyIsSpace c = true) :
    isListMarker c = true := by
  simp [isListMarker, h]

theorem lineCore_head :
    ∀ {l : List Char} {c : Char} {rest : List Char},
      lineCore l = c :: rest → isListMarker c = false := by
  intro l c rest h
  rw [lineCore, stripList] at h
  obtain ⟨t, ht⟩ := dropTrailWs_head h
  cases hd : l.dropWhile isListMarker with
  | nil => rw [hd] at ht; exact absurd ht (by simp)
  | cons x xs =>
    have hx : isListMarker x = false := dropWhile_head_false hd
    have hxs : pyIsSpace x = false := by
      cases hw : pyIsSpace x
      · rfl
      · exact absurd (isListMarker_of_space hw) (by simp [hx])
    rw [hd, List.dropWhile_cons, if_neg (by simp [hxs])] at ht
    obtain ⟨rfl, -⟩ := List.cons.inj ht
    exact hx

/-- Counterexample to claim C5 as stated: a leading `"(1) "` list
prefix is not stripped, because the marker class contains `')'` but not
`'('`; the line is kept verbatim, prefix included. -/
theorem C5_counterexample :
    fallback_extract_lines 2 25 "(1) Green Villa Pune" = ["(1) Green Villa Pune"] ∧
      "Green Villa Pune" ∉ fallback_extract_lines 2 25 "(1) Green Villa Pune" :=
  ⟨by decide, by decide⟩

/-- Claim C5, amended: heuristic extraction strips from each line the
leading run of dashes, bullets, digits, dots, closing parentheses and
whitespace — opening parentheses are not in the marker class, so a
prefix such as `"(1) "` survives — and keeps a (non-blank) line exactly
when its word count lies in [2, 25] and its length is at most 140. -/
theorem C5_heuristic_amended :
    (∀ line : String, (∀ c ∈ line.toList, isLineBreak c = false) →
      stripList line.toList ≠ [] →
      fallback_extract_lines 2 25 line =
        if keepLine 2 25 (lineCore line.toList) then [String.mk (lineCore line.toList)]
        else []) ∧
    (∀ l : List Char, lineCore l = stripList (l.dropWhile isListMarker)) ∧
    (∀ l : List Char, keepLine 2 25 l = true ↔
      2 ≤ (splitWords l).length ∧ (splitWords l).length ≤ 25 ∧ l.length ≤ 140) ∧
    (isListMarker '-' = true ∧ isListMarker '•' = true ∧
      (∀ d : Char, d.isDigit = true → isListMarker d = true) ∧
      isListMarker '.' = true ∧ isListMarker ')' = true ∧
      (∀ c : Char, pyIsSpace c = true → isListMarker c = true) ∧
      isListMarker '(' = false) := by
  refine ⟨?_, fun l => rfl, ?_, by decide, by decide, ?_, by decide, by decide,
    fun c => isListMarker_of_space, by decide⟩
  · intro line hnb hne
    have hnil : line.toList ≠ [] := by
      intro h
      exact hne (by rw [h]; rfl)
    have hs : splitlines line.toList = [line.toList] := by
      rw [splitlines, splitlinesGo_noBreak line.toList false [] hnb]
      cases hL : line.toList with
      | nil => exact absurd hL hnil
      | cons a t => simp
    rw [fallback_extract_lines, hs]
    by_cases hk : keepLine 2 25 (lineCore line.data) <;>
      simp [List.filter_cons, hk, show stripList line.data ≠ [] from hne, String.mk]
  · intro l
    rw [keepLine]
    constructor
    · intro h
      simp only [Bool.and_eq_true, decide_eq_true_eq] at h
      exact ⟨h.1.1, h.1.2, h.2⟩
    · intro ⟨h1, h2, h3⟩
      simp [h1, h2, h3]
  · intro d hd
    simp [isListMarker, hd]

/-- Witness for C5's amended statement at a line with a dash-and-number
prefix. -/
theorem C5_heuristic_amended_witness :
    fallback_extract_lines 2 25 "- 12. Sea View Flat, Mumbai" =
      if keepLine 2 25 (lineCore "- 12. Sea View Flat, Mumbai".toList) then
        [String.mk (lineCore "- 12. Sea View Flat, Mumbai".toList)]
      else [] :=
  C5_heuristic_amended.1 "- 12. Sea View Flat, Mumbai" (by decide) (by decide)

/-- Claim C9: the marker-stripping consumes any leading run of digits,
dots, dashes, closing parentheses, bullets and whitespace, so no kept
suggestion starts with such a character — in particular an address's
leading street number is removed even though it is content. -/
theorem C9_digit_consumption :
    (∀ (text s : String), s ∈ fallback_extract_lines 2 25 text →
      ∀ (c : Char) (rest : List Char), s.toList = c :: rest →
        isListMarker c = false) ∧
    fallback_extract_lines 2 25 "432 Park Avenue — Manhattan, New York" =
      ["Park Avenue — Manhattan, New York"] := by
  constructor
  · intro text s hs c rest hrepr
    simp only [fallback_extract_lines] at hs
    obtain ⟨lc, hlc, rfl⟩ := List.mem_map.mp hs
    have hlc2 := (List.mem_filter.mp hlc).1
    obtain ⟨l0, -, rfl⟩ := List.mem_map.mp hlc2
    exact lineCore_head (l := l0) hrepr
  · decide

/-- Witness for C9 at the address line of the claim. -/
theorem C9_digit_consumption_witness :
    ("Park Avenue — Manhattan, New York" ∈
        fallback_extract_lines 2 25 "432 Park Avenue — Manhattan, New York") ∧
      isListMarker 'P' = false :=
  ⟨by decide,
   C9_digit_consumption.1 "432 Park Avenue — Manhattan, New York"
      "Park Avenue — Manhattan, New York" (by decide) 'P'
      "ark Avenue — Manhattan, New York".toList (by rfl)⟩

theorem removeTagsGo_fuel :
    ∀ (f : Nat) {g : Nat} {cs : List Char}, cs.length ≤ f → cs.length ≤ g →
      removeTagsGo f cs = removeTagsGo g cs := by
  intro f
  induction f with
  | zero =>
    intro g cs hf _
    have h0 : cs = [] := List.eq_nil_of_length_eq_zero (Nat.le_zero.mp hf)
    subst h0
    cases g <;> rfl
  | succ f ih =>
    intro g cs hf hg
    cases cs with
    | nil => cases g <;> rfl
    | cons c rest =>
      cases g with
      | zero => simp at hg
      | succ g2 =>
        have hf2 : rest.length ≤ f := by
          simp only [List.length_cons] at hf; omega
        have hg2 : rest.length ≤ g2 := by
          simp only [List.length_cons] at hg; omega
        simp only [removeTagsGo]
        by_cases hc : c = '<'
        · rw [if_pos hc, if_pos hc]
          by_cases hl : lineHasClose rest = true
          · rw [if_pos hl, if_pos hl]
            exact ih (le_trans (afterClose_length rest) hf2)
              (le_trans (afterClose_length rest) hg2)
          · rw [if_neg hl, if_neg hl, ih hf2 hg2]
        · rw [if_neg hc, if_neg hc, ih hf2 hg2]

theorem removeThinkGo_fuel :
    ∀ (f : Nat) {g : Nat} {cs : List Char}, cs.length ≤ f → cs.length ≤ g →
      removeThinkGo f cs = removeThinkGo g cs := by
  intro f
  induction f with
  | zero =>
    intro g cs hf _
    have h0 : cs = [] := List.eq_nil_of_length_eq_zero (Nat.le_zero.mp hf)
    subst h0
    cases g <;> rfl
  | succ f ih =>
    intro g cs hf hg
    cases cs with
    | nil => cases g <;> rfl
    | cons c rest =>
      cases g with
      | zero => simp at hg
      | succ g2 =>
        have hf2 : rest.length ≤ f := by
          simp only [List.length_cons] at hf; omega
        have hg2 : rest.length ≤ g2 := by
          simp only [List.length_cons] at hg; omega
        simp only [removeThinkGo]
        by_cases hs : startsWithCI thinkOpenTag (c :: rest) = true
        · rw [if_pos hs, if_pos hs]
          cases hch : chopAfterCI thinkCloseTag ((c :: rest).drop thinkOpenTag.length) with
          | none => simp only [hch]; rw [ih hf2 hg2]
          | some l =>
            have hll : l.length < ((c :: rest).drop thinkOpenTag.length).length :=
              chopAfterCI_length (by decide) hch
            have hld : ((c :: rest).drop thinkOpenTag.length).length ≤ rest.length := by
              rw [List.length_drop]
              simp only [List.length_cons, thinkOpenTag, List.length_cons]
              omega
            simp only [hch]
            exact ih (by omega) (by omega)
        · rw [if_neg hs, if_neg hs, ih hf2 hg2]

theorem startsWithCI_of_lower :
    ∀ (xs ys pat : List Char), lowerList xs = pat →
      startsWithCI pat (xs ++ ys) = true := by
  intro xs
  induction xs with
  | nil =>
    intro ys pat h
    rw [← h]
    rfl
  | cons x xt ih =>
    intro ys pat h
    rw [← h]
    show startsWithCI (x.toLower :: lowerList xt) (x :: (xt ++ ys)) = true
    show ((x.toLower == x.toLower) && startsWithCI (lowerList xt) (xt ++ ys)) = true
    rw [beq_self_eq_true, Bool.true_and]
    exact ih ys (lowerList xt) rfl

theorem startsWithCI_append_of_le :
    ∀ (pat xs ys : List Char), pat.length ≤ xs.length →
      startsWithCI pat (xs ++ ys) = startsWithCI pat xs := by
  intro pat
  induction pat with
  | nil => intro xs ys _; rfl
  | cons p ps ih =>
    intro xs ys h
    cases xs with
    | nil => simp at h
    | cons x xt =>
      show ((x.toLower == p) && startsWithCI ps (xt ++ ys)) =
        ((x.toLower == p) && startsWithCI ps xt)
      rw [ih xt ys (by simp only [List.length_cons] at h; omega)]

theorem startsWithCI_append_lt :
    ∀ (xs pat ys : List Char), startsWithCI pat (xs ++ ys) = true →
      xs.length < pat.length → startsWithCI (pat.drop xs.length) ys = true := by
  intro xs
  induction xs with
  | nil => intro pat ys h _; simpa using h
  | cons x xt ih =>
    intro pat ys h hlt
    cases pat with
    | nil => simp at hlt
    | cons p ps =>
      have h2 : startsWithCI ps (xt ++ ys) = true := by
        have h3 : ((x.toLower == p) && startsWithCI ps (xt ++ ys)) = true := h
        exact (Bool.and_eq_true _ _ |>.mp h3).2
      show startsWithCI (ps.drop xt.length) ys = true
      exact ih ps ys h2 (by simp only [List.length_cons] at hlt; omega)

theorem startsWithCI_head :
    ∀ {pat : List Char} {c : Char} {rest : List Char},
      startsWithCI pat (c :: rest) = true → pat ≠ [] →
      pat.head? = some c.toLower := by
  intro pat c rest h hne
  cases pat with
  | nil => exact absurd rfl hne
  | cons p ps =>
    have h2 : ((c.toLower == p) && startsWithCI ps rest) = true := h
    have h3 : c.toLower = p := by
      have := (Bool.and_eq_true _ _ |>.mp h2).1
      exact eq_of_beq this
    rw [List.head?_cons, h3]

theorem containsCI_cons {pat : List Char} {c : Char} {rest : List Char}
    (h : containsCI pat (c :: rest) = false) :
    startsWithCI pat (c :: rest) = false ∧ containsCI pat rest = false := by
  rw [containsCI] at h
  exact ⟨(Bool.or_eq_false_iff.mp h).1, (Bool.or_eq_false_iff.mp h).2⟩

theorem thinkOpen_drop_head :
    ∀ k : Nat, k < 7 → 1 ≤ k → (thinkOpenTag.drop k).head? ≠ some '<' := by decide

theorem thinkClose_drop_head :
    ∀ k : Nat, k < 8 → 1 ≤ k → (thinkCloseTag.drop k).head? ≠ some '<' := by decide

/-- A case-insensitive tag pattern beginning with `'<'` (and containing
no later `'<'`) cannot start inside a stretch free of occurrences and
reach the occurrence that follows it. -/
theorem startsWithCI_boundary
    (pat : List Char)
    (hk : ∀ k : Nat, 1 ≤ k → k < pat.length → (pat.drop k).head? ≠ some '<') :
    ∀ (xs tail : List Char) (h0 : Char), xs ≠ [] →
      containsCI pat xs = false → tail.head? = some h0 → h0.toLower = '<' →
      startsWithCI pat (xs ++ tail) = false := by
  intro xs tail h0 hne hcon hh hl
  rcases Nat.lt_or_ge xs.length pat.length with hlt | hge
  · cases hsw : startsWithCI pat (xs ++ tail)
    · rfl
    · exfalso
      have h2 := startsWithCI_append_lt xs pat tail hsw hlt
      cases tail with
      | nil => simp at hh
      | cons a t =>
        have hdne : pat.drop xs.length ≠ [] := by
          intro hE
          have hE2 := congrArg List.length hE
          simp only [List.length_drop, List.length_nil] at hE2
          omega
        have hhead := startsWithCI_head h2 hdne
        have ha : a = h0 := by simpa using hh
        rw [ha, hl] at hhead
        have hxs1 : 1 ≤ xs.length := by
          cases xs with
          | nil => exact absurd rfl hne
          | cons y yt => simp
        exact hk xs.length hxs1 hlt hhead
  · rw [startsWithCI_append_of_le pat xs tail hge]
    cases xs with
    | nil => exact absurd rfl hne
    | cons x xt => exact (containsCI_cons hcon).1

theorem removeThinkGo_pre :
    ∀ (fuel : Nat) (pre tail : List Char) (h0 : Char),
      (pre ++ tail).length ≤ fuel →
      containsCI thinkOpenTag pre = false →
      tail.head? = some h0 → h0.toLower = '<' →
      removeThinkGo fuel (pre ++ tail) = pre ++ removeThinkGo tail.length tail := by
  intro fuel
  induction fuel with
  | zero =>
    intro pre tail h0 hlen _ hh _
    cases tail with
    | nil => simp at hh
    | cons a t => simp [List.length_append] at hlen
  | succ fuel ih =>
    intro pre tail h0 hlen hcon hh hl
    cases pre with
    | nil =>
      simp only [List.nil_append]
      exact removeThinkGo_fuel (fuel + 1) (by simpa using hlen) le_rfl
    | cons p pt =>
      have hsw : startsWithCI thinkOpenTag ((p :: pt) ++ tail) = false :=
        startsWithCI_boundary thinkOpenTag
          (fun k h1 h2 => thinkOpen_drop_head k (by simpa [thinkOpenTag] using h2) h1)
          (p :: pt) tail h0 (by simp) hcon hh hl
      have hsw2 : startsWithCI thinkOpenTag (p :: (pt ++ tail)) = false := hsw
      rw [List.cons_append]
      simp only [removeThinkGo]
      rw [if_neg (by simp [hsw2])]
      rw [ih pt tail h0
        (by simp only [List.cons_append, List.length_cons] at hlen; omega)
        (containsCI_cons hcon).2 hh hl]
      rfl

theorem chopAfterCI_exact :
    ∀ (mid cl post : List Char),
      containsCI thinkCloseTag mid = false →
      lowerList cl = thinkCloseTag →
      chopAfterCI thinkCloseTag (mid ++ (cl ++ post)) = some post := by
  intro mid
  induction mid with
  | nil =>
    intro cl post _ hcl
    cases cl with
    | nil => exact absurd hcl (by decide)
    | cons c0 cl2 =>
      have hsw : startsWithCI thinkCloseTag ((c0 :: cl2) ++ post) = true :=
        startsWithCI_of_lower (c0 :: cl2) post thinkCloseTag hcl
      have hlen : (c0 :: cl2).length = thinkCloseTag.length := by
        rw [← hcl]; simp [lowerList]
      have hsw2 : startsWithCI thinkCloseTag (c0 :: (cl2 ++ post)) = true := hsw
      simp only [List.nil_append, List.cons_append]
      rw [chopAfterCI]
      rw [if_pos hsw2]
      rw [← List.cons_append, ← hlen, List.drop_left]
  | cons m mt ih =>
    intro cl post hcon hcl
    cases cl with
    | nil => exact absurd hcl (by decide)
    | cons c0 cl2 =>
      have hc0 : c0.toLower = '<' := by
        rw [lowerList, List.map_cons] at hcl
        exact (List.cons.inj hcl).1
      have hsw : startsWithCI thinkCloseTag ((m :: mt) ++ ((c0 :: cl2) ++ post)) = false :=
        startsWithCI_boundary thinkCloseTag
          (fun k h1 h2 => thinkClose_drop_head k (by simpa [thinkCloseTag] using h2) h1)
          (m :: mt) ((c0 :: cl2) ++ post) c0 (by simp) hcon (by simp) hc0
      have hsw2 : startsWithCI thinkCloseTag (m :: (mt ++ (c0 :: (cl2 ++ post)))) = false := hsw
      rw [List.cons_append, chopAfterCI]
      rw [if_neg (by simp [hsw2])]
      exact ih (c0 :: cl2) post (containsCI_cons hcon).2 hcl

/-- Content wrapped in the `<think>` pair (any casing of the two tags,
content spanning newlines) is removed whole by the first substitution,
together with the tags. -/
theorem removeThink_tagged :
    ∀ (pre op mid cl post : List Char),
      lowerList op = thinkOpenTag → lowerList cl = thinkCloseTag →
      containsCI thinkOpenTag pre = false → containsCI thinkCloseTag mid = false →
      removeThink (pre ++ (op ++ (mid ++ (cl ++ post)))) = pre ++ removeThink post := by
  intro pre op mid cl post hop hcl hpre hmid
  cases op with
  | nil => exact absurd hop (by decide)
  | cons o0 op2 =>
    have ho0 : o0.toLower = '<' := by
      rw [lowerList, List.map_cons] at hop
      exact (List.cons.inj hop).1
    rw [removeThink]
    rw [removeThinkGo_pre _ pre ((o0 :: op2) ++ (mid ++ (cl ++ post))) o0 le_rfl hpre
      (by simp) ho0]
    congr 1
    have hswo : startsWithCI thinkOpenTag ((o0 :: op2) ++ (mid ++ (cl ++ post))) = true :=
      startsWithCI_of_lower (o0 :: op2) _ thinkOpenTag hop
    have hlenop : (o0 :: op2).length = thinkOpenTag.length := by
      rw [← hop]; simp [lowerList]
    rw [List.cons_append]
    rw [show (o0 :: (op2 ++ (mid ++ (cl ++ post)))).length =
      (op2 ++ (mid ++ (cl ++ post))).length + 1 from by simp]
    have hswo2 : startsWithCI thinkOpenTag (o0 :: (op2 ++ (mid ++ (cl ++ post)))) = true :=
      hswo
    simp only [removeThinkGo]
    rw [if_pos hswo2]
    have hdrop : (o0 :: (op2 ++ (mid ++ (cl ++ post)))).drop thinkOpenTag.length =
        mid ++ (cl ++ post) := by
      rw [← List.cons_append, ← hlenop, List.drop_left]
    rw [hdrop, chopAfterCI_exact mid cl post hmid hcl]
    show removeThinkGo (op2 ++ (mid ++ (cl ++ post))).length post = removeThink post
    rw [removeThink]
    refine removeThinkGo_fuel _ ?_ le_rfl
    simp only [List.length_append]
    omega

theorem lineHasClose_through :
    ∀ (name rest : List Char), '>' ∉ name → '\n' ∉ name →
      lineHasClose (name ++ '>' :: rest) = true := by
  intro name
  induction name with
  | nil =>
    intro rest _ _
    rfl
  | cons a nt ih =>
    intro rest hg hn
    have ha1 : ¬ a = '>' := by
      intro e; subst e; exact hg (List.mem_cons_self _ _)
    have ha2 : ¬ a = '\n' := by
      intro e; subst e; exact hn (List.mem_cons_self _ _)
    rw [List.cons_append, lineHasClose, if_neg ha1, if_neg ha2]
    exact ih rest (fun h => hg (List.mem_cons_of_mem a h))
      (fun h => hn (List.mem_cons_of_mem a h))

theorem afterClose_through :
    ∀ (name rest : List Char), '>' ∉ name →
      afterClose (name ++ '>' :: rest) = rest := by
  intro name
  induction name with
  | nil =>
    intro rest _
    rw [List.nil_append, afterClose, if_pos rfl]
  | cons a nt ih =>
    intro rest hg
    have ha1 : ¬ a = '>' := by
      intro e; subst e; exact hg (List.mem_cons_self _ _)
    rw [List.cons_append, afterClose, if_neg ha1]
    exact ih rest (fun h => hg (List.mem_cons_of_mem a h))

theorem removeTagsGo_pre :
    ∀ (fuel : Nat) (pre tail : List Char),
      (pre ++ tail).length ≤ fuel → '<' ∉ pre →
      removeTagsGo fuel (pre ++ tail) = pre ++ removeTagsGo tail.length tail := by
  intro fuel
  induction fuel with
  | zero =>
    intro pre tail hlen _
    have h0 : pre ++ tail = [] := List.eq_nil_of_length_eq_zero (Nat.le_zero.mp hlen)
    have hp : pre = [] := (List.append_eq_nil.mp h0).1
    have ht : tail = [] := (List.append_eq_nil.mp h0).2
    subst hp; subst ht; rfl
  | succ fuel ih =>
    intro pre tail hlen hpre
    cases pre with
    | nil =>
      simp only [List.nil_append]
      exact removeTagsGo_fuel (fuel + 1) (by simpa using hlen) le_rfl
    | cons p pt =>
      have hp : ¬ p = '<' := by
        intro e; subst e; exact hpre (List.mem_cons_self _ _)
      rw [List.cons_append]
      simp only [removeTagsGo]
      rw [if_neg hp]
      rw [ih pt tail
        (by simp only [List.cons_append, List.length_cons] at hlen; omega)
        (fun h => hpre (List.mem_cons_of_mem p h))]
      rfl

/-- For a well-formed non-`think` tag pair on single-line tags, the
second substitution removes only the two tag spans and keeps the wrapped
content (which may span newlines). -/
theorem removeTags_pair :
    ∀ (pre name content post : List Char),
      '<' ∉ pre → '>' ∉ name → '\n' ∉ name → '<' ∉ content →
      removeTags (pre ++ ('<' :: (name ++ ('>' ::
          (content ++ ('<' :: '/' :: (name ++ ('>' :: post)))))))) =
        pre ++ (content ++ removeTags post) := by
  intro pre name content post hpre hname hnl hcontent
  rw [removeTags, removeTagsGo_pre _ pre _ le_rfl hpre]
  congr 1
  rw [show ('<' :: (name ++ ('>' ::
      (content ++ ('<' :: '/' :: (name ++ ('>' :: post))))))).length =
    (name ++ ('>' :: (content ++ ('<' :: '/' :: (name ++ ('>' :: post)))))).length + 1
    from by simp]
  simp only [removeTagsGo]
  rw [if_pos True.intro,
    if_pos (lineHasClose_through name (content ++ ('<' :: '/' :: (name ++ ('>' :: post)))) hname hnl),
    afterClose_through name (content ++ ('<' :: '/' :: (name ++ ('>' :: post)))) hname]
  rw [removeTagsGo_fuel _
    (show (content ++ ('<' :: '/' :: (name ++ ('>' :: post)))).length ≤
      (name ++ ('>' :: (content ++ ('<' :: '/' :: (name ++ ('>' :: post)))))).length from by
        simp only [List.length_append, List.length_cons]; omega)
    le_rfl]
  rw [removeTagsGo_pre _ content ('<' :: '/' :: (name ++ ('>' :: post))) le_rfl hcontent]
  congr 1
  rw [show ('<' :: '/' :: (name ++ ('>' :: post))).length =
    ('/' :: (name ++ ('>' :: post))).length + 1 from by simp]
  simp only [removeTagsGo]
  rw [if_pos True.intro]
  have hlc : lineHasClose ('/' :: (name ++ ('>' :: post))) = true := by
    rw [lineHasClose, if_neg (by decide), if_neg (by decide)]
    exact lineHasClose_through name post hname hnl
  rw [if_pos hlc]
  have hac : afterClose ('/' :: (name ++ ('>' :: post))) = post := by
    rw [afterClose, if_neg (by decide)]
    exact afterClose_through name post hname
  rw [hac, removeTags]
  refine removeTagsGo_fuel _ ?_ le_rfl
  simp only [List.length_cons, List.length_append]
  omega

theorem dropTrailWs_idem : ∀ l : List Char, dropTrailWs (dropTrailWs l) = dropTrailWs l := by
  intro l
  induction l with
  | nil => rfl
  | cons a t ih =>
    rw [dropTrailWs]
    cases hdt : dropTrailWs t with
    | nil =>
      by_cases hw : pyIsSpace a
      · rw [if_pos (by simp [hw])]
        rfl
      · rw [if_neg (by simp [hw])]
        simp [dropTrailWs, hw]
    | cons r rs =>
      have h2 : dropTrailWs (r :: rs) = r :: rs := by
        rw [← hdt, ih]
      rw [dropTrailWs, h2]

theorem stripList_stripped : ∀ l : List Char, stripList (stripList l) = stripList l := by
  intro l
  rw [stripList, stripList]
  have h1 : (dropTrailWs (l.dropWhile pyIsSpace)).dropWhile pyIsSpace =
      dropTrailWs (l.dropWhile pyIsSpace) := by
    cases hd : dropTrailWs (l.dropWhile pyIsSpace) with
    | nil => rfl
    | cons c rest =>
      obtain ⟨t, ht⟩ := dropTrailWs_head hd
      have hc : pyIsSpace c = false := dropWhile_head_false ht
      rw [List.dropWhile_cons, if_neg (by simp [hc])]
  rw [h1, dropTrailWs_idem]

theorem clean_text_stripped : ∀ s : String, pyStripStr (clean_text s) = clean_text s := by
  intro s
  rw [clean_text]
  by_cases hs : s = ""
  · rw [if_pos hs]
    rfl
  · rw [if_neg hs]
    show String.mk (stripList (stripList (removeTags (removeThink s.toList)))) =
      String.mk (stripList (removeTags (removeThink s.toList)))
    rw [stripList_stripped]

theorem lineHasClose_removeTagsGo :
    ∀ (f : Nat) (cs : List Char), cs.length ≤ f → lineHasClose cs = false →
      lineHasClose (removeTagsGo f cs) = false := by
  intro f
  induction f with
  | zero =>
    intro cs hf h
    have h0 : cs = [] := List.eq_nil_of_length_eq_zero (Nat.le_zero.mp hf)
    subst h0
    exact h
  | succ f ih =>
    intro cs hf h
    cases cs with
    | nil => exact h
    | cons c rest =>
      have hf2 : rest.length ≤ f := by
        simp only [List.length_cons] at hf; omega
      rw [lineHasClose] at h
      by_cases hg : c = '>'
      · rw [if_pos hg] at h
        exact absurd h (by simp)
      · rw [if_neg hg] at h
        simp only [removeTagsGo]
        by_cases hc : c = '<'
        · have hn : ¬ c = '\n' := by
            rw [hc]; decide
          rw [if_neg hn] at h
          rw [if_pos hc]
          rw [if_neg (by simp [h])]
          rw [lineHasClose, if_neg (hc ▸ hg), if_neg (hc ▸ hn)]
          exact ih rest hf2 h
        · rw [if_neg hc]
          rw [lineHasClose, if_neg hg]
          by_cases hn : c = '\n'
          · rw [if_pos hn]
          · rw [if_neg hn]
            rw [if_neg hn] at h
            exact ih rest hf2 h

theorem hasTagPair_cons_false {c : Char} {rest : List Char}
    (h : hasTagPair (c :: rest) = false) : hasTagPair rest = false := by
  rw [hasTagPair] at h
  by_cases hc : c = '<'
  · rw [if_pos hc] at h
    exact (Bool.or_eq_false_iff.mp h).2
  · rw [if_neg hc] at h
    exact h

theorem removeTagsGo_noPair :
    ∀ (f : Nat) (cs : List Char), cs.length ≤ f →
      hasTagPair (removeTagsGo f cs) = false := by
  intro f
  induction f with
  | zero =>
    intro cs hf
    have h0 : cs = [] := List.eq_nil_of_length_eq_zero (Nat.le_zero.mp hf)
    subst h0
    rfl
  | succ f ih =>
    intro cs hf
    cases cs with
    | nil => rfl
    | cons c rest =>
      have hf2 : rest.length ≤ f := by
        simp only [List.length_cons] at hf; omega
      simp only [removeTagsGo]
      by_cases hc : c = '<'
      · rw [if_pos hc]
        by_cases hl : lineHasClose rest = true
        · rw [if_pos hl]
          exact ih (afterClose rest) (le_trans (afterClose_length rest) hf2)
        · rw [if_neg hl]
          rw [hasTagPair, if_pos hc]
          rw [lineHasClose_removeTagsGo f rest hf2 (by simpa using hl), ih rest hf2]
          rfl
      · rw [if_neg hc]
        rw [hasTagPair, if_neg hc]
        exact ih rest hf2

theorem hasTagPair_dropWhile (p : Char → Bool) :
    ∀ (l : List Char), hasTagPair l = false →
      hasTagPair (l.dropWhile p) = false := by
  intro l
  induction l with
  | nil => intro h; exact h
  | cons c rest ih =>
    intro h
    rw [List.dropWhile_cons]
    by_cases hp : p c = true
    · rw [if_pos hp]
      exact ih (hasTagPair_cons_false h)
    · rw [if_neg hp]
      exact h

theorem lineHasClose_dropTrailWs :
    ∀ (l : List Char), lineHasClose l = false →
      lineHasClose (dropTrailWs l) = false := by
  intro l
  induction l with
  | nil => intro h; exact h
  | cons c rest ih =>
    intro h
    rw [lineHasClose] at h
    by_cases hg : c = '>'
    · rw [if_pos hg] at h
      exact absurd h (by simp)
    · rw [if_neg hg] at h
      rw [dropTrailWs]
      cases hdt : dropTrailWs rest with
      | nil =>
        by_cases hw : pyIsSpace c
        · rw [if_pos (by simp [hw])]
          rfl
        · rw [if_neg (by simp [hw])]
          rw [lineHasClose, if_neg hg]
          by_cases hn : c = '\n'
          · rw [if_pos hn]
          · rw [if_neg hn]
            rfl
      | cons r rs =>
        rw [lineHasClose, if_neg hg]
        by_cases hn : c = '\n'
        · rw [if_pos hn]
        · rw [if_neg hn]
          rw [if_neg hn] at h
          rw [← hdt]
          exact ih h

theorem hasTagPair_dropTrailWs :
    ∀ (l : List Char), hasTagPair l = false →
      hasTagPair (dropTrailWs l) = false := by
  intro l
  induction l with
  | nil => intro h; exact h
  | cons c rest ih =>
    intro h
    rw [dropTrailWs]
    cases hdt : dropTrailWs rest with
    | nil =>
      by_cases hw : pyIsSpace c
      · rw [if_pos (by simp [hw])]
        rfl
      · rw [if_neg (by simp [hw])]
        rw [hasTagPair]
        by_cases hc : c = '<'
        · rw [if_pos hc]
          rfl
        · rw [if_neg hc]
          rfl
    | cons r rs =>
      rw [hasTagPair]
      by_cases hc : c = '<'
      · rw [if_pos hc]
        rw [hasTagPair, if_pos hc] at h
        have h1 : lineHasClose rest = false := (Bool.or_eq_false_iff.mp h).1
        have h2 : hasTagPair rest = false := (Bool.or_eq_false_iff.mp h).2
        rw [← hdt, lineHasClose_dropTrailWs rest h1, ih h2]
        rfl
      · rw [if_neg hc]
        rw [← hdt]
        exact ih (hasTagPair_cons_false h)

theorem hasTagPair_stripList (l : List Char) (h : hasTagPair l = false) :
    hasTagPair (stripList l) = false :=
  hasTagPair_dropTrailWs _ (hasTagPair_dropWhile _ _ h)

/-- Counterexample to claim C3 as stated: for the well-formed tag pair
`<b>…</b>` only the tags are removed — the wrapped content `secret` is
the cleaned output itself, so tagged content is not excluded for tag
pairs other than the reasoning tag. -/
theorem C3_counterexample :
    clean_text "<b>secret</b>" = "secret" ∧ ("secret" : String) ≠ "" :=
  ⟨by decide, by decide⟩

/-- Claim C3, amended: content wrapped in the specific reasoning pair
`<think>…</think>` is excluded (matching the two tags case-insensitively,
the content spanning newlines); for any other well-formed tag pair whose
tags sit on one line, only the tag markup itself is removed and the
wrapped content is kept; and the result is trimmed of surrounding
whitespace. -/
theorem C3_tag_handling_amended :
    (∀ pre op mid cl post : List Char,
      lowerList op = thinkOpenTag → lowerList cl = thinkCloseTag →
      containsCI thinkOpenTag pre = false → containsCI thinkCloseTag mid = false →
      removeThink (pre ++ (op ++ (mid ++ (cl ++ post)))) = pre ++ removeThink post) ∧
    (∀ pre name content post : List Char,
      '<' ∉ pre → '>' ∉ name → '\n' ∉ name → '<' ∉ content →
      removeTags (pre ++ ('<' :: (name ++ ('>' ::
          (content ++ ('<' :: '/' :: (name ++ ('>' :: post)))))))) =
        pre ++ (content ++ removeTags post)) ∧
    (∀ s : String, pyStripStr (clean_text s) = clean_text s) :=
  ⟨removeThink_tagged, removeTags_pair, clean_text_stripped⟩

/-- Witness for C3's amended statement: a mixed-case `think` pair with a
newline in its content disappears; a `<b>…</b>` pair keeps its content. -/
theorem C3_tag_handling_amended_witness :
    removeThink ("ab ".toList ++ ("<THINK>".toList ++ ("hidden\nreasoning".toList ++
        ("</ThInK>".toList ++ " ok".toList)))) =
      "ab ".toList ++ removeThink " ok".toList ∧
    removeTags ("x ".toList ++ ('<' :: ("b".toList ++ ('>' ::
        ("kept text".toList ++ ('<' :: '/' :: ("b".toList ++ ('>' :: " y".toList)))))))) =
      "x ".toList ++ ("kept text".toList ++ removeTags " y".toList) ∧
    pyStripStr (clean_text "  <b>pad</b>  ") = clean_text "  <b>pad</b>  " :=
  ⟨C3_tag_handling_amended.1 "ab ".toList "<THINK>".toList "hidden\nreasoning".toList
      "</ThInK>".toList " ok".toList (by decide) (by decide) (by decide) (by decide),
   C3_tag_handling_amended.2.1 "x ".toList "b".toList "kept text".toList " y".toList
      (by decide) (by decide) (by decide) (by decide),
   C3_tag_handling_amended.2.2 "  <b>pad</b>  "⟩

/-- Claim C10: for every input text the cleaned output contains no
substring delimited by `<` and `>` on one line — every such span is
deleted whether it is markup or legitimate content, as with
`<2km from metro>`, which is silently lost. -/
theorem C10_angle_bracket_loss :
    (∀ s : String, hasTagPair (clean_text s).toList = false) ∧
    clean_text "Cozy flat <2km from metro> in Pune" = "Cozy flat  in Pune" := by
  constructor
  · intro s
    rw [clean_text]
    by_cases hs : s = ""
    · rw [if_pos hs]
      rfl
    · rw [if_neg hs]
      show hasTagPair (stripList (removeTags (removeThink s.toList))) = false
      refine hasTagPair_stripList _ ?_
      rw [removeTags]
      exact removeTagsGo_noPair _ _ le_rfl
  · decide

end Rentello
